import Mathlib

set_option maxRecDepth 8000

/-!
Shallow embedding of `src/stream_analyzer.py` (class `Stream_Analyzer`) and
proofs about it.

Modelling conventions:
* Python/NumPy float64 values are idealised as real numbers `ℝ`.
* NumPy NaN is modelled by `Option ℝ` (`none` = NaN); `np.mean` of an empty
  slice is `none`, arithmetic and `np.maximum` propagate `none`, and an IEEE
  comparison involving NaN is `False` (see `nle`).
* NumPy arrays are modelled as functions `ℕ → _` together with the length
  information carried by the configuration; buffers are Lean lists.
* `np.round` rounds halves to even (IEEE `roundTiesToEven`), see `np_round`.
* External collaborators (`getFFT`, `scipy.signal.savgol_filter`,
  `get_smoothing_filter`) and the helpers of the repository that are not part
  of the given sources (`utils.py`, `fft.py`) are either opaque parameters
  (bundled in `Collab`) or are modelled from the spec, as flagged in their
  doc comments.
-/

namespace StreamAnalyzer

/-- NaN-aware float value: `none` models IEEE NaN. -/
abbrev RVal := Option ℝ

/-- Addition propagating NaN. -/
def nadd : RVal → RVal → RVal
  | some x, some y => some (x + y)
  | _, _ => none

/-- Sum of a list of NaN-aware values (NaN-absorbing). -/
def nsum (l : List RVal) : RVal := l.foldr nadd (some 0)

/-- Model of `np.mean` on a 1-D slice: NaN on the empty slice, NaN-absorbing
otherwise. -/
noncomputable def nmeanList (l : List RVal) : RVal :=
  if l.length = 0 then none else (nsum l).map (fun x => x / (l.length : ℝ))

/-- Model of `np.mean` over a finite index set of a real-valued array:
`np.mean` of an empty fancy-indexed slice is NaN. -/
noncomputable def nmeanFinset (S : Finset ℕ) (f : ℕ → ℝ) : RVal :=
  if S = ∅ then none else some ((S.sum f) / (S.card : ℝ))

/-- Model of `np.mean` over the first `B` entries of a NaN-aware vector. -/
noncomputable def nmeanRange (B : ℕ) (g : ℕ → RVal) : RVal :=
  nmeanList ((List.range B).map g)

/-- Model of `np.maximum` on scalars: NaN-propagating maximum. -/
noncomputable def nmax : RVal → RVal → RVal
  | some x, some y => some (max x y)
  | _, _ => none

/-- Scalar multiple of a NaN-aware value. -/
def nsmulR (r : ℝ) : RVal → RVal := Option.map (fun x => r * x)

/-- IEEE-style `≤` on NaN-aware values: false whenever either side is NaN. -/
def nle (a b : RVal) : Prop := ∃ x y, a = some x ∧ b = some y ∧ x ≤ y

/-- Model of `np.nan_to_num` on a scalar: NaN becomes `0`. -/
def nan_to_num (a : RVal) : ℝ := a.getD 0

open Classical in
/-- Model of `np.round` (rounds halves to even, like IEEE `rint`). -/
noncomputable def np_round (x : ℝ) : ℤ :=
  if Int.fract x = 1/2 then (if Even ⌊x⌋ then ⌊x⌋ else ⌊x⌋ + 1) else round x

/-- Model of `np.max` of the array `[f 0, ..., f (L-1)]` (junk if `L = 0`,
where NumPy raises). -/
noncomputable def npMaxF (L : ℕ) (f : ℕ → ℝ) : ℝ :=
  ((List.range L).map f).foldr max (f 0)

/-- Model of `np.min` of the integer array `[f 0, ..., f (L-1)]`. -/
def npMinI (L : ℕ) (f : ℕ → ℤ) : ℤ :=
  ((List.range L).map f).foldr min (f 0)

/-- Model of `np.argmax` of `[f 0, ..., f (L-1)]` (first index attaining the
maximum). -/
noncomputable def npArgmax (L : ℕ) (f : ℕ → ℝ) : ℕ :=
  (List.range L).foldl (fun a j => if f a < f j then j else a) 0

/-- Last `n` elements of a list, in order; the whole list if it is shorter.
This is the shape shared by `get_most_recent` and ring-buffer overwrite in the
buffer model below. -/
def takeLast (l : List α) (n : ℕ) : List α := l.drop (l.length - n)

/-- Modelled from the spec: `round_up_to_even` lives in the repository's
`utils.py`, which is not among the given sources.  Per the spec it rounds a
value up to the nearest even integer (example: `48000 * 50 / 1000 = 2400`
stays `2400`; `0.03 * 51 = 1.53` becomes `2`). -/
def round_up_to_even (x : ℚ) : ℤ := 2 * ⌈x / 2⌉

/-- Constructor arguments of `Stream_Analyzer.__init__`. -/
structure Config where
  rate : ℚ
  FFT_window_size_ms : ℚ
  updates_per_second : ℚ
  smoothing_length_ms : ℚ
  n_frequency_bins : ℕ

/-- Default constructor arguments (source lines 23-28). -/
def defaultConfig : Config :=
  { rate := 96000, FFT_window_size_ms := 50, updates_per_second := 10,
    smoothing_length_ms := 50, n_frequency_bins := 51 }

/-- `self.FFT_window_size` (line 41). -/
def Config.FFT_window_size (cfg : Config) : ℤ :=
  round_up_to_even (cfg.rate * cfg.FFT_window_size_ms / 1000)

/-- `int(self.FFT_window_size/2)`, the spectrum length `L` (lines 43-44). -/
def Config.specLen (cfg : Config) : ℕ := (cfg.FFT_window_size / 2).toNat

/-- `self.FFT_window_size_ms` as recomputed on line 42. -/
def Config.FFT_window_size_ms_actual (cfg : Config) : ℚ :=
  1000 * (cfg.FFT_window_size : ℚ) / cfg.rate

/-- `self.update_window_n_frames` (line 46). -/
def Config.update_window_n_frames (cfg : Config) : ℤ :=
  round_up_to_even (cfg.rate / cfg.updates_per_second)

/-- `self.data_windows_to_buffer` (lines 47-48). -/
def Config.data_windows_to_buffer (cfg : Config) : ℤ :=
  max 1 ⌈(cfg.FFT_window_size : ℚ) / (cfg.update_window_n_frames : ℚ)⌉

/-- Sample capacity of the raw data buffer (line 50): `data_windows_to_buffer`
chunks of `update_window_n_frames` samples each. -/
def Config.dataCap (cfg : Config) : ℕ :=
  (cfg.data_windows_to_buffer * cfg.update_window_n_frames).toNat

/-- `self.filter_width` (line 39), derived cross-bin smoothing width. -/
def Config.filter_width (cfg : Config) : ℤ :=
  round_up_to_even ((3 / 100) * (cfg.n_frequency_bins : ℚ)) - 1

/-- Hardcoded `self.rolling_stats_window_s = 20` (line 34). -/
def rolling_stats_window_s : ℕ := 20

/-- Hardcoded `self.fft_fps = 30` (line 75). -/
def fft_fps : ℕ := 30

/-- `self.rolling_stats_window_n` (line 83). -/
def rolling_stats_window_n : ℕ := rolling_stats_window_s * fft_fps

/-- Hardcoded `self.equalizer_strength = 0.20` (line 35). -/
noncomputable def equalizer_strength : ℝ := 1 / 5

/-- Hardcoded `self.apply_frequency_smoothing = True` (line 36). -/
def apply_frequency_smoothing : Bool := true

/-- One entry of `np.logspace(np.log2(L), 0, L, endpoint=True, base=2)`
(line 61): `2` raised to the `j`-th of `L` evenly spaced exponents descending
from `log2 L` to `0`. -/
noncomputable def logspace_desc (L j : ℕ) : ℝ :=
  (2 : ℝ) ^ ((((L : ℝ) - 1 - (j : ℝ)) / ((L : ℝ) - 1)) * Real.logb 2 (L : ℝ))

/-- The rounded integer array of line 62:
`np.round(((x - np.max(x)) * -1) / (L / B), 0).astype(int)` with
`x = logspace(...) - 1`. -/
noncomputable def fftx_bin_indices_raw (L B j : ℕ) : ℤ :=
  np_round ((npMaxF L (fun i => logspace_desc L i - 1) - (logspace_desc L j - 1)) /
    ((L : ℝ) / (B : ℝ)))

/-- `self.fftx_bin_indices` after line 63:
`np.minimum(np.arange(L), raw - np.min(raw))`. -/
noncomputable def fftx_bin_indices (L B j : ℕ) : ℤ :=
  min (j : ℤ) (fftx_bin_indices_raw L B j - npMinI L (fftx_bin_indices_raw L B))

/-- `self.fftx_indices_per_bin[b]` (lines 68-70): the linear spectrum indices
whose bin id is `b`. -/
noncomputable def fftx_indices_per_bin (L B : ℕ) (b : ℕ) : Finset ℕ :=
  (Finset.range L).filter (fun j => fftx_bin_indices L B j = (b : ℤ))

/-- Bin index sets for a configuration. -/
noncomputable def Config.binSet (cfg : Config) (b : ℕ) : Finset ℕ :=
  fftx_indices_per_bin cfg.specLen cfg.n_frequency_bins b

/-- `self.fftx` (line 44): the static frequency axis
`arange(L) * rate / FFT_window_size`. -/
noncomputable def Config.fftxAxis (cfg : Config) (i : ℕ) : ℝ :=
  (i : ℝ) * (cfg.rate : ℝ) / (cfg.FFT_window_size : ℝ)

/-- `self.frequency_bin_centres` as filled by the constructor loop
(lines 68-72): mean frequency of the indices of each bin, NaN for an empty
bin. -/
noncomputable def Config.binCentres (cfg : Config) (b : ℕ) : RVal :=
  nmeanFinset (cfg.binSet b) cfg.fftxAxis

/-- `self.power_normalization_coefficients` (line 82):
`np.logspace(np.log2(1), np.log2(np.log2(rate/2)), L, endpoint=True, base=2)`. -/
noncomputable def power_normalization_coefficients (cfg : Config) (i : ℕ) : ℝ :=
  (2 : ℝ) ^ (((i : ℝ) / ((cfg.specLen : ℝ) - 1)) *
    Real.logb 2 (Real.logb 2 ((cfg.rate : ℝ) / 2)))

/-- Modelled from the spec: the external collaborator functions.  `getFFT`
(from the repository's `fft.py`, not among the given sources; the spec treats
it as the black-box `computeMagnitudeSpectrum(samples, rate, windowSize,
logScale) -> float[W/2]`), `savgol_filter` (the external polynomial smoothing
primitive `polynomialSmooth(values, windowWidth, polyOrder)`), and
`get_smoothing_filter` (from `utils.py`, the black-box
`buildSmoothingKernel(windowDurationMs, smoothingDurationMs) -> float[K]`).
All are opaque parameters of the development. -/
structure Collab where
  getFFT : List ℝ → ℚ → ℤ → Bool → ℕ → ℝ
  savgol_filter : (ℕ → ℝ) → ℤ → ℕ → ℕ → ℝ
  get_smoothing_filter : ℚ → ℚ → List ℝ

/-- `self.smoothing_kernel` (line 57). -/
def smoothing_kernel (c : Collab) (cfg : Config) : List ℝ :=
  c.get_smoothing_filter cfg.FFT_window_size_ms_actual cfg.smoothing_length_ms

/-- `len(self.smoothing_kernel)`, the temporal-smoothing kernel length `K`,
which is also the row capacity of `self.feature_buffer` (line 58). -/
def kernelLen (c : Collab) (cfg : Config) : ℕ := (smoothing_kernel c cfg).length

/-- Mutable state of a `Stream_Analyzer` instance.  `feature_buffer` is
`none` when `smoothing_length_ms <= 0`, mirroring that line 58 then never
allocates the buffer.  Buffers store oldest entries first. -/
structure State where
  cfg : Config
  fftx : ℕ → ℝ
  fft : ℕ → ℝ
  data_buffer : List ℝ
  feature_buffer : Option (List (ℕ → ℝ))
  frequency_bin_energies : ℕ → RVal
  frequency_bin_centres : ℕ → RVal
  rolling_bin_values : List (ℕ → RVal)
  bin_mean_values : ℕ → RVal
  buffer_is_updated : Bool
  num_ffts : ℕ
  strongest_frequency : ℝ
  log_features : Bool

/-- The state built by `Stream_Analyzer.__init__` (lines 23-90).  The rolling
bin-value ring buffer starts filled with its `start_value = 25000`
(modelled from the spec's Rolling Adaptive Equalizer: a full-capacity history
whose per-bin mean is recomputed across the full current history). -/
noncomputable def initState (cfg : Config) : State where
  cfg := cfg
  fftx := cfg.fftxAxis
  fft := fun _ => 1
  data_buffer := []
  feature_buffer := if 0 < cfg.smoothing_length_ms then some [] else none
  frequency_bin_energies := fun _ => some 0
  frequency_bin_centres := cfg.binCentres
  rolling_bin_values := List.replicate rolling_stats_window_n (fun _ => some 25000)
  bin_mean_values := fun _ => some 1
  buffer_is_updated := false
  num_ffts := 0
  strongest_frequency := 0
  log_features := false

/-- `Stream_Analyzer.append_data` (lines 126-128): push samples into the ring
sample buffer (overwrite-oldest, modelled from the spec's Ring Sample Buffer)
and set the dirty flag. -/
def append_data (s : State) (in_data : List ℝ) : State :=
  { s with data_buffer := takeLast (s.data_buffer ++ in_data) s.cfg.dataCap,
           buffer_is_updated := true }

/-- The raw compensated spectrum of lines 98-102:
`getFFT(data_buffer.get_most_recent(FFT_window_size), ...) *
power_normalization_coefficients`. -/
noncomputable def rawSpectrum (c : Collab) (s : State) : ℕ → ℝ := fun i =>
  c.getFFT (takeLast s.data_buffer s.cfg.FFT_window_size.toNat) s.cfg.rate
      s.cfg.FFT_window_size s.log_features i *
    power_normalization_coefficients s.cfg i

/-- `np.mean(self.smoothing_kernel * buffered_features, axis=0)` (lines
110-111): column-wise mean of the kernel-weighted rows. -/
noncomputable def smoothedRows (kernel : List ℝ) (rows : List (ℕ → ℝ)) : ℕ → ℝ :=
  fun i =>
    (((List.range kernel.length).map
      (fun j => kernel.getD j 0 * rows.getD j (fun _ => 0) i)).sum) /
      (kernel.length : ℝ)

/-- The temporal smoothing stage of `update_features` (lines 106-111).
Returns the new feature buffer contents and the effective spectrum. -/
noncomputable def smoothStage (c : Collab) (s : State) (fft0 : ℕ → ℝ) :
    Option (List (ℕ → ℝ)) × (ℕ → ℝ) :=
  if 0 < s.cfg.smoothing_length_ms then
    let K := kernelLen c s.cfg
    let rows := takeLast (s.feature_buffer.getD [] ++ [fft0]) K
    if (takeLast rows K).length = K then
      (some rows, smoothedRows (smoothing_kernel c s.cfg) (takeLast rows K))
    else (some rows, fft0)
  else (s.feature_buffer, fft0)

/-- `Stream_Analyzer.update_features` (lines 97-124). -/
noncomputable def update_features (c : Collab) (s : State) : State :=
  { s with
    fft := (smoothStage c s (rawSpectrum c s)).2
    feature_buffer := (smoothStage c s (rawSpectrum c s)).1
    num_ffts := s.num_ffts + 1
    strongest_frequency :=
      s.fftx (npArgmax s.cfg.specLen (smoothStage c s (rawSpectrum c s)).2)
    frequency_bin_energies := fun b =>
      nmeanFinset (s.cfg.binSet b) (smoothStage c s (rawSpectrum c s)).2 }

/-- The rolling history after `self.rolling_bin_values.append_data(...)`
(line 93): ring append dropping the oldest row. -/
def pushRolling (s : State) : List (ℕ → RVal) :=
  takeLast (s.rolling_bin_values ++ [s.frequency_bin_energies]) rolling_stats_window_n

/-- The per-bin means of line 94:
`np.mean(self.rolling_bin_values.get_buffer_data(), axis=0)`. -/
noncomputable def rollingMeans (s : State) : ℕ → RVal := fun b =>
  nmeanList ((pushRolling s).map (fun r => r b))

/-- `Stream_Analyzer.update_rolling_stats` (lines 92-95). -/
noncomputable def update_rolling_stats (s : State) : State :=
  { s with
    rolling_bin_values := pushRolling s
    bin_mean_values := fun b =>
      nmax (nsmulR (1 - equalizer_strength)
          (nmeanRange s.cfg.n_frequency_bins (rollingMeans s)))
        (rollingMeans s b) }

/-- The in-place post-processing of the bin energies inside
`get_audio_features` (lines 135-139): `np.nan_to_num`, optional
Savitzky-Golay smoothing when `filter_width > 3`, then clamping negative
entries to `0`. -/
noncomputable def postProcess (c : Collab) (cfg : Config) (e : ℕ → RVal) : ℕ → RVal :=
  let e1 : ℕ → ℝ := fun b => nan_to_num (e b)
  let e2 : ℕ → ℝ :=
    if apply_frequency_smoothing then
      if 3 < cfg.filter_width then c.savgol_filter e1 cfg.filter_width 3 else e1
    else e1
  fun b => some (if e2 b < 0 then 0 else e2 b)

/-- The four-tuple returned by `get_audio_features` (line 142). -/
structure Features where
  fftx : ℕ → ℝ
  fft : ℕ → ℝ
  frequency_bin_centres : ℕ → RVal
  frequency_bin_energies : ℕ → RVal

/-- The feature frame read off a state (line 142 reads the four fields). -/
def State.features (s : State) : Features :=
  { fftx := s.fftx, fft := s.fft, frequency_bin_centres := s.frequency_bin_centres,
    frequency_bin_energies := s.frequency_bin_energies }

/-- The state after the dirty branch of `get_audio_features` (lines 131-140):
run the pipeline and the rolling-stats update, post-process the bin energies
in place, clear the dirty flag. -/
noncomputable def refreshState (c : Collab) (s : State) : State :=
  { update_rolling_stats (update_features c s) with
    frequency_bin_energies :=
      postProcess c (update_rolling_stats (update_features c s)).cfg
        (update_rolling_stats (update_features c s)).frequency_bin_energies
    buffer_is_updated := false }

/-- `Stream_Analyzer.get_audio_features` (lines 130-142). -/
noncomputable def get_audio_features (c : Collab) (s : State) : State × Features :=
  if s.buffer_is_updated then (refreshState c s, (refreshState c s).features)
  else (s, s.features)

/-- Public operations of the analyzer, for reachability statements. -/
inductive Op where
  | append : List ℝ → Op
  | get : Op

/-- One public call. -/
noncomputable def step (c : Collab) (s : State) : Op → State
  | Op.append d => append_data s d
  | Op.get => (get_audio_features c s).1

/-- A sequence of public calls. -/
noncomputable def run (c : Collab) (s : State) : List Op → State
  | [] => s
  | op :: ops => run c (step c s op) ops

/-- Sanitised-energies invariant: every entry of the stored bin-energy vector
is a finite number that is at least `0`. -/
def EnergiesOK (s : State) : Prop :=
  ∀ b, ∃ r, s.frequency_bin_energies b = some r ∧ 0 ≤ r

/-- A constructible configuration with more bins than spectrum indices:
`rate = 4`, `FFT_window_size_ms = 1000` give `FFT_window_size = 4`, spectrum
length `L = 2`, with `n_frequency_bins = 4`. -/
def cfgBad4 : Config :=
  { rate := 4, FFT_window_size_ms := 1000, updates_per_second := 1,
    smoothing_length_ms := 50, n_frequency_bins := 4 }

/-- Like `cfgBad4` but with `n_frequency_bins = 6` and temporal smoothing
disabled. -/
def cfgBad6 : Config :=
  { rate := 4, FFT_window_size_ms := 1000, updates_per_second := 1,
    smoothing_length_ms := 0, n_frequency_bins := 6 }

/-- The default configuration with temporal smoothing disabled. -/
def cfgNoSmooth : Config :=
  { rate := 96000, FFT_window_size_ms := 50, updates_per_second := 10,
    smoothing_length_ms := 0, n_frequency_bins := 51 }

/-- A concrete collaborator bundle: an FFT that returns the zero spectrum, an
identity polynomial smoother, and an empty smoothing kernel. -/
def cZero : Collab :=
  { getFFT := fun _ _ _ _ _ => 0, savgol_filter := fun v _ _ => v,
    get_smoothing_filter := fun _ _ => [] }

/-- A concrete collaborator bundle whose smoothing kernel is `[1]`. -/
def cOne : Collab :=
  { getFFT := fun _ _ _ _ _ => 0, savgol_filter := fun v _ _ => v,
    get_smoothing_filter := fun _ _ => [1] }

theorem np_round_eq_of_bounds (n : ℤ) (x : ℝ) (h1 : (n : ℝ) - 1/2 < x)
    (h2 : x < (n : ℝ) + 1/2) : np_round x = n := by
  have hfr : Int.fract x ≠ 1/2 := by
    intro h
    have hx : x = (⌊x⌋ : ℝ) + 1/2 := by
      have := Int.fract_add_floor x
      rw [h] at this
      linarith
    have hb1 : (n : ℝ) - 1 < (⌊x⌋ : ℝ) := by linarith
    have hb2 : (⌊x⌋ : ℝ) < (n : ℝ) := by linarith
    have hb1' : n - 1 < ⌊x⌋ := by exact_mod_cast hb1
    have hb2' : ⌊x⌋ < n := by exact_mod_cast hb2
    omega
  rw [np_round, if_neg hfr, round_eq]
  refine Int.floor_eq_iff.mpr ⟨by linarith, by linarith⟩

theorem np_round_zero : np_round 0 = 0 := by
  have := np_round_eq_of_bounds 0 0 (by norm_num) (by norm_num)
  simpa using this

theorem np_round_nonneg (x : ℝ) (h : 0 ≤ x) : 0 ≤ np_round x := by
  rw [np_round]
  split
  · have h0 : (0 : ℤ) ≤ ⌊x⌋ := Int.floor_nonneg.mpr h
    split <;> omega
  · rw [round_eq]
    exact Int.floor_nonneg.mpr (by linarith)

theorem np_round_le (n : ℤ) (x : ℝ) (h : x ≤ (n : ℝ)) : np_round x ≤ n := by
  rw [np_round]
  split
  · rename_i htie
    have hx : x = (⌊x⌋ : ℝ) + 1/2 := by
      have := Int.fract_add_floor x
      rw [htie] at this
      linarith
    have hlt : (⌊x⌋ : ℝ) < (n : ℝ) := by linarith
    have hlt' : ⌊x⌋ < n := by exact_mod_cast hlt
    split <;> omega
  · rw [round_eq]
    have : ⌊x + 1/2⌋ ≤ ⌊(n : ℝ) + 1/2⌋ := Int.floor_le_floor (by linarith)
    calc ⌊x + 1/2⌋ ≤ ⌊(n : ℝ) + 1/2⌋ := this
      _ = n + ⌊(1 : ℝ)/2⌋ := Int.floor_int_add n (1/2)
      _ = n := by norm_num

theorem foldr_max_eq {α : Type} [LinearOrder α] (a : α) (l : List α)
    (h : ∀ x ∈ l, x ≤ a) : l.foldr max a = a := by
  induction l with
  | nil => rfl
  | cons x t ih =>
    rw [List.foldr_cons, ih (fun y hy => h y (List.mem_cons_of_mem x hy))]
    exact max_eq_right (h x (List.mem_cons_self x t))

theorem foldr_min_eq {α : Type} [LinearOrder α] (a : α) (l : List α)
    (h : ∀ x ∈ l, a ≤ x) : l.foldr min a = a := by
  induction l with
  | nil => rfl
  | cons x t ih =>
    rw [List.foldr_cons, ih (fun y hy => h y (List.mem_cons_of_mem x hy))]
    exact min_eq_right (h x (List.mem_cons_self x t))

theorem takeLast_eq_self {α : Type} (l : List α) (n : ℕ) (h : l.length ≤ n) :
    takeLast l n = l := by
  rw [takeLast, Nat.sub_eq_zero_of_le h, List.drop_zero]

theorem takeLast_length {α : Type} (l : List α) (n : ℕ) :
    (takeLast l n).length = min n l.length := by
  rw [takeLast, List.length_drop]
  omega

theorem takeLast_append_getLast {α : Type} (l : List α) (x : α) (n : ℕ)
    (hn : 1 ≤ n) : (takeLast (l ++ [x]) n).getLast? = some x := by
  rw [takeLast]
  have hle : (l ++ [x]).length - n ≤ l.length := by
    rw [List.length_append]
    simp only [List.length_singleton]
    omega
  rw [List.drop_append_of_le_length hle]
  exact List.getLast?_concat _

theorem takeLast_replicate_append {α : Type} (m : ℕ) (a x : α) (hm : 1 ≤ m) :
    takeLast (List.replicate m a ++ [x]) m = List.replicate (m - 1) a ++ [x] := by
  rw [takeLast]
  have hlen : (List.replicate m a ++ [x]).length - m = 1 := by
    rw [List.length_append, List.length_replicate]
    simp only [List.length_singleton]
    omega
  rw [hlen, List.drop_append_of_le_length (by rw [List.length_replicate]; omega),
    List.drop_replicate]

theorem nadd_none_right (a : RVal) : nadd a none = none := by
  cases a <;> rfl

theorem nsum_eq_none (l : List RVal) (h : none ∈ l) : nsum l = none := by
  induction l with
  | nil => cases h
  | cons x t ih =>
    rw [nsum, List.foldr_cons]
    rcases List.mem_cons.mp h with h1 | h2
    · rw [← h1]; rfl
    · rw [show t.foldr nadd (some 0) = nsum t from rfl, ih h2, nadd_none_right]

theorem nsum_isSome (l : List RVal) (h : ∀ x ∈ l, x ≠ none) :
    ∃ r, nsum l = some r := by
  induction l with
  | nil => exact ⟨0, rfl⟩
  | cons x t ih =>
    obtain ⟨r, hr⟩ := ih (fun y hy => h y (List.mem_cons_of_mem x hy))
    obtain ⟨v, hv⟩ := Option.ne_none_iff_exists'.mp (h x (List.mem_cons_self x t))
    refine ⟨v + r, ?_⟩
    rw [nsum, List.foldr_cons, show t.foldr nadd (some 0) = nsum t from rfl,
      hr, hv]
    rfl

theorem nmeanList_eq_none_of_mem (l : List RVal) (h : none ∈ l) :
    nmeanList l = none := by
  rw [nmeanList]
  split
  · rfl
  · rw [nsum_eq_none l h]; rfl

theorem nmeanList_ne_none (l : List RVal) (h : ∀ x ∈ l, x ≠ none)
    (hl : l ≠ []) : nmeanList l ≠ none := by
  obtain ⟨r, hr⟩ := nsum_isSome l h
  rw [nmeanList, if_neg (by simpa using (List.length_pos.mpr hl).ne'), hr]
  simp

theorem not_nle_none_right (a : RVal) : ¬ nle a none := by
  rintro ⟨x, y, _, hy, _⟩
  cases hy

theorem fftx_bin_indices_le_self (L B j : ℕ) :
    fftx_bin_indices L B j ≤ (j : ℤ) := min_le_left _ _

theorem binSet_empty_of_le (L B b : ℕ) (h : L ≤ b) :
    fftx_indices_per_bin L B b = ∅ := by
  rw [fftx_indices_per_bin, Finset.filter_eq_empty_iff]
  intro j hj
  intro heq
  have h1 : (b : ℤ) ≤ (j : ℤ) := heq ▸ fftx_bin_indices_le_self L B j
  have h2 : j < L := Finset.mem_range.mp hj
  omega

theorem get_clean (c : Collab) (s : State) (h : s.buffer_is_updated = false) :
    get_audio_features c s = (s, s.features) := by
  rw [get_audio_features, if_neg (by rw [h]; exact Bool.false_ne_true)]

theorem get_fst_flag (c : Collab) (s : State) :
    (get_audio_features c s).1.buffer_is_updated = false := by
  by_cases h : s.buffer_is_updated = true
  · rw [get_audio_features, if_pos h]
    rfl
  · rw [get_clean c s (Bool.not_eq_true _ |>.mp h)]
    exact Bool.not_eq_true _ |>.mp h

theorem get_snd_eq (c : Collab) (s : State) :
    (get_audio_features c s).2 = (get_audio_features c s).1.features := by
  by_cases h : s.buffer_is_updated = true
  · rw [get_audio_features, if_pos h]
  · rw [get_clean c s (Bool.not_eq_true _ |>.mp h)]

theorem refresh_energies (c : Collab) (s : State) :
    (refreshState c s).frequency_bin_energies =
      postProcess c (update_rolling_stats (update_features c s)).cfg
        (update_rolling_stats (update_features c s)).frequency_bin_energies := rfl

theorem refresh_centres (c : Collab) (s : State) :
    (refreshState c s).frequency_bin_centres = s.frequency_bin_centres := rfl

theorem run_centres (c : Collab) (s : State) (ops : List Op) :
    (run c s ops).frequency_bin_centres = s.frequency_bin_centres := by
  induction ops generalizing s with
  | nil => rfl
  | cons op ops ih =>
    rw [run, ih]
    cases op with
    | append d => rfl
    | get =>
      show (get_audio_features c s).1.frequency_bin_centres = _
      by_cases h : s.buffer_is_updated = true
      · rw [get_audio_features, if_pos h]
        exact refresh_centres c s
      · rw [get_clean c s (by simpa using h)]

theorem postProcess_ok (c : Collab) (cfg : Config) (e : ℕ → RVal) (b : ℕ) :
    ∃ r, postProcess c cfg e b = some r ∧ 0 ≤ r := by
  simp only [postProcess]
  refine ⟨_, rfl, ?_⟩
  split_ifs
  all_goals try exact le_refl 0
  all_goals exact le_of_not_lt (by assumption)

theorem energiesOK_step (c : Collab) (s : State) (hs : EnergiesOK s) (op : Op) :
    EnergiesOK (step c s op) := by
  cases op with
  | append d => exact fun b => hs b
  | get =>
    by_cases h : s.buffer_is_updated = true
    · intro b
      show ∃ r, (get_audio_features c s).1.frequency_bin_energies b = some r ∧ 0 ≤ r
      rw [get_audio_features, if_pos h]
      exact postProcess_ok c _ _ b
    · intro b
      show ∃ r, (get_audio_features c s).1.frequency_bin_energies b = some r ∧ 0 ≤ r
      rw [get_clean c s (by simpa using h)]
      exact hs b

theorem energiesOK_run (c : Collab) (s : State) (ops : List Op)
    (hs : EnergiesOK s) : EnergiesOK (run c s ops) := by
  induction ops generalizing s with
  | nil => exact hs
  | cons op ops ih => exact ih _ (energiesOK_step c s hs op)

theorem energiesOK_init (cfg : Config) : EnergiesOK (initState cfg) :=
  fun _ => ⟨0, rfl, le_refl 0⟩

/-- Claim C2: two consecutive `get_audio_features()` calls with no intervening
`append_data()` return identical four-tuples, and the second call performs no
recomputation: it leaves the state (in particular the FFT counter and the
rolling-equalizer history) untouched, because the pipeline runs only when the
dirty flag is set and the first call clears the flag. -/
theorem claim_C2_get_idempotent (c : Collab) (s : State) :
    get_audio_features c (get_audio_features c s).1 =
      ((get_audio_features c s).1, (get_audio_features c s).2) ∧
    (get_audio_features c (get_audio_features c s).1).1.num_ffts =
      (get_audio_features c s).1.num_ffts ∧
    (get_audio_features c (get_audio_features c s).1).1.rolling_bin_values =
      (get_audio_features c s).1.rolling_bin_values := by
  have h1 : get_audio_features c (get_audio_features c s).1 =
      ((get_audio_features c s).1, (get_audio_features c s).1.features) :=
    get_clean c _ (get_fst_flag c s)
  refine ⟨?_, ?_, ?_⟩
  · rw [h1, get_snd_eq]
  · rw [h1]
  · rw [h1]

/-- Claim C3: after any sequence of public calls on a freshly constructed
analyzer, every entry of the bin-energy vector returned by
`get_audio_features()` is a finite number (not NaN) and is at least `0`:
empty-bin NaN means are replaced by `0` and negative values (including any
introduced by the polynomial smoother) are clamped to `0` before return. -/
theorem claim_C3_energies_finite_nonneg (c : Collab) (cfg : Config)
    (ops : List Op) (b : ℕ) :
    ∃ r, (get_audio_features c (run c (initState cfg) ops)).2.frequency_bin_energies b =
      some r ∧ 0 ≤ r := by
  rw [get_snd_eq]
  show ∃ r, (step c (run c (initState cfg) ops) Op.get).frequency_bin_energies b = _ ∧ _
  exact energiesOK_step c _ (energiesOK_run c _ ops (energiesOK_init cfg)) Op.get b

/-- Claim C8: a `get_audio_features()` call before any `append_data()` (after
construction and any number of prior reads) runs no pipeline stage — the state
stays exactly the constructed state — and returns the construction-time
values: the static frequency axis, the all-ones spectrum, the construction
bin centre frequencies, and the all-zero bin-energy vector. -/
theorem claim_C8_cold_start (c : Collab) (cfg : Config) (n : ℕ) :
    run c (initState cfg) (List.replicate n Op.get) = initState cfg ∧
    (get_audio_features c (initState cfg)).2 =
      { fftx := cfg.fftxAxis, fft := fun _ => 1,
        frequency_bin_centres := cfg.binCentres,
        frequency_bin_energies := fun _ => some 0 } := by
  constructor
  · induction n with
    | zero => rfl
    | succ m ih =>
      rw [List.replicate_succ, run,
        show step c (initState cfg) Op.get = (get_audio_features c (initState cfg)).1 from rfl,
        get_clean c _ rfl]
      exact ih
  · rw [get_clean c _ rfl]
    rfl

theorem smoothStage_neg (c : Collab) (s : State) (f0 : ℕ → ℝ)
    (h : s.cfg.smoothing_length_ms ≤ 0) :
    smoothStage c s f0 = (s.feature_buffer, f0) := by
  rw [smoothStage, if_neg (not_lt.mpr h)]

theorem smoothStage_rows_len (c : Collab) (s : State) (f0 : ℕ → ℝ) :
    (takeLast (s.feature_buffer.getD [] ++ [f0]) (kernelLen c s.cfg)).length =
      min (kernelLen c s.cfg) ((s.feature_buffer.getD []).length + 1) := by
  rw [takeLast_length, List.length_append]
  rfl

theorem smoothStage_warmup (c : Collab) (s : State) (f0 : ℕ → ℝ)
    (hms : 0 < s.cfg.smoothing_length_ms)
    (h : (s.feature_buffer.getD []).length + 1 < kernelLen c s.cfg) :
    (smoothStage c s f0).2 = f0 := by
  rw [smoothStage, if_pos hms]
  simp only
  rw [takeLast_eq_self _ _ (by rw [smoothStage_rows_len]; omega),
    if_neg (by rw [smoothStage_rows_len]; omega)]

theorem smoothStage_full (c : Collab) (s : State) (f0 : ℕ → ℝ)
    (hms : 0 < s.cfg.smoothing_length_ms)
    (h : kernelLen c s.cfg ≤ (s.feature_buffer.getD []).length + 1) :
    (smoothStage c s f0).2 =
      smoothedRows (smoothing_kernel c s.cfg)
        (takeLast (s.feature_buffer.getD [] ++ [f0]) (kernelLen c s.cfg)) := by
  rw [smoothStage, if_pos hms]
  simp only
  rw [takeLast_eq_self _ _ (by rw [smoothStage_rows_len]; omega),
    if_pos (by rw [smoothStage_rows_len]; omega)]

/-- Claim C7: the Temporal Smoother in its three regimes.  (i) When the
configured smoothing duration is zero or negative, construction allocates no
feature history buffer and `update_features` passes the raw compensated
spectrum through unchanged, leaving the buffer alone.  (ii) When smoothing is
enabled but the history (including the newly pushed spectrum) holds fewer
than `K` frames (`K` = kernel length), the raw spectrum passes through
unchanged.  (iii) Once the history holds at least `K` frames, the effective
spectrum is the elementwise kernel-weighted average of the most recent `K`
spectra. -/
theorem claim_C7_temporal_smoother (c : Collab) (cfg : Config) (s : State) :
    (cfg.smoothing_length_ms ≤ 0 → (initState cfg).feature_buffer = none) ∧
    (s.cfg.smoothing_length_ms ≤ 0 →
      (update_features c s).fft = rawSpectrum c s ∧
      (update_features c s).feature_buffer = s.feature_buffer) ∧
    (0 < s.cfg.smoothing_length_ms →
      ((s.feature_buffer.getD []).length + 1 < kernelLen c s.cfg →
        (update_features c s).fft = rawSpectrum c s) ∧
      (kernelLen c s.cfg ≤ (s.feature_buffer.getD []).length + 1 →
        (update_features c s).fft =
          smoothedRows (smoothing_kernel c s.cfg)
            (takeLast (s.feature_buffer.getD [] ++ [rawSpectrum c s])
              (kernelLen c s.cfg)))) := by
  refine ⟨fun h => ?_, fun h => ⟨?_, ?_⟩, fun hms => ⟨fun h => ?_, fun h => ?_⟩⟩
  · show (if 0 < cfg.smoothing_length_ms then some [] else none) = none
    rw [if_neg (not_lt.mpr h)]
  · show (smoothStage c s (rawSpectrum c s)).2 = rawSpectrum c s
    rw [smoothStage_neg c s _ h]
  · show (smoothStage c s (rawSpectrum c s)).1 = s.feature_buffer
    rw [smoothStage_neg c s _ h]
  · exact smoothStage_warmup c s _ hms h
  · exact smoothStage_full c s _ hms h

/-- Closed witness for claim C7: a configuration with smoothing disabled hits
regime (i), and with the one-tap kernel `[1]` a fresh analyzer's first update
already hits regime (iii). -/
theorem claim_C7_witness :
    (initState cfgNoSmooth).feature_buffer = none ∧
    (update_features cZero (initState cfgNoSmooth)).fft =
      rawSpectrum cZero (initState cfgNoSmooth) ∧
    (update_features cOne (initState defaultConfig)).fft =
      smoothedRows (smoothing_kernel cOne defaultConfig)
        (takeLast ([] ++ [rawSpectrum cOne (initState defaultConfig)]) 1) := by
  refine ⟨(claim_C7_temporal_smoother cZero cfgNoSmooth (initState cfgNoSmooth)).1
    (by norm_num [cfgNoSmooth]), ?_, ?_⟩
  · exact ((claim_C7_temporal_smoother cZero cfgNoSmooth (initState cfgNoSmooth)).2.1
      (by norm_num [cfgNoSmooth, initState])).1
  · have h := ((claim_C7_temporal_smoother cOne defaultConfig
      (initState defaultConfig)).2.2
      (by norm_num [defaultConfig, initState])).2
    exact h (by simp [initState, defaultConfig, kernelLen, smoothing_kernel, cOne])

theorem filter_width_51 (cfg : Config) (h : cfg.n_frequency_bins = 51) :
    cfg.filter_width = 1 := by
  rw [Config.filter_width, h, round_up_to_even,
    show ((3 : ℚ) / 100 * (51 : ℕ) / 2) = 153 / 200 by norm_num,
    show (⌈(153 : ℚ) / 200⌉ = 1) from by rw [Int.ceil_eq_iff]; norm_num]
  norm_num

theorem postProcess_no_savgol (c : Collab) (cfg : Config)
    (h : cfg.filter_width ≤ 3) (e : ℕ → RVal) :
    postProcess c cfg e = fun b =>
      some (if nan_to_num (e b) < 0 then 0 else nan_to_num (e b)) := by
  funext b
  simp only [postProcess]
  rw [if_neg (not_lt.mpr h), if_pos (show apply_frequency_smoothing = true from rfl)]

/-- Claim C10: with the default `n_frequency_bins = 51`, the derived filter
width `round_up_to_even(0.03 * B) - 1` equals `1`, which does not exceed `3`,
so the Savitzky-Golay post-processing smoother is never applied even though
frequency smoothing is enabled: `get_audio_features` does not depend on the
polynomial-smoothing collaborator at all, and only the NaN-replacement and
the negative-value clamp run on the bin energies. -/
theorem claim_C10_default_no_savgol (c1 c2 : Collab) (s : State)
    (hfft : c1.getFFT = c2.getFFT)
    (hker : c1.get_smoothing_filter = c2.get_smoothing_filter)
    (hB : s.cfg.n_frequency_bins = 51) :
    defaultConfig.filter_width = 1 ∧
    postProcess c1 s.cfg = postProcess c2 s.cfg ∧
    get_audio_features c1 s = get_audio_features c2 s := by
  have hw : s.cfg.filter_width = 1 := filter_width_51 s.cfg hB
  have hpost : postProcess c1 s.cfg = postProcess c2 s.cfg := by
    funext e
    rw [postProcess_no_savgol c1 s.cfg (by omega) e,
      postProcess_no_savgol c2 s.cfg (by omega) e]
  refine ⟨filter_width_51 defaultConfig rfl, hpost, ?_⟩
  have hraw : rawSpectrum c1 s = rawSpectrum c2 s := by
    funext i
    simp only [rawSpectrum, hfft]
  have hss : smoothStage c1 s (rawSpectrum c2 s) =
      smoothStage c2 s (rawSpectrum c2 s) := by
    simp only [smoothStage, kernelLen, smoothing_kernel, hker]
  have hupd : update_features c1 s = update_features c2 s := by
    simp only [update_features, hraw, hss]
  have hrefresh : refreshState c1 s = refreshState c2 s := by
    rw [refreshState, refreshState, hupd]
    have : postProcess c1 (update_rolling_stats (update_features c2 s)).cfg =
        postProcess c2 (update_rolling_stats (update_features c2 s)).cfg :=
      hpost
    rw [this]
  by_cases h : s.buffer_is_updated = true
  · rw [get_audio_features, get_audio_features, if_pos h, if_pos h, hrefresh]
  · rw [get_clean c1 s (by simpa using h), get_clean c2 s (by simpa using h)]

/-- Closed witness for claim C10: two collaborator bundles with identical
FFT and kernel collaborators but different polynomial smoothers give
identical `get_audio_features` results on a default-configured analyzer. -/
theorem claim_C10_witness :
    defaultConfig.filter_width = 1 ∧
    get_audio_features cZero (initState defaultConfig) =
      get_audio_features
        { cZero with savgol_filter := fun _ _ _ _ => 37 }
        (initState defaultConfig) := by
  have h := claim_C10_default_no_savgol cZero
    { cZero with savgol_filter := fun _ _ _ _ => 37 }
    (initState defaultConfig) rfl rfl rfl
  exact ⟨h.1, h.2.2⟩

theorem nmax_none_right (a : RVal) : nmax a none = none := by
  cases a <;> rfl

theorem takeLast_append_mem {α : Type} (l : List α) (x : α) (n : ℕ)
    (hn : 1 ≤ n) : x ∈ takeLast (l ++ [x]) n := by
  rw [takeLast]
  have hle : (l ++ [x]).length - n ≤ l.length := by
    rw [List.length_append]
    simp only [List.length_singleton]
    omega
  rw [List.drop_append_of_le_length hle]
  exact List.mem_append_right _ (List.mem_singleton_self x)

theorem rolling_window_pos : 1 ≤ rolling_stats_window_n := by
  norm_num [rolling_stats_window_n, rolling_stats_window_s, fft_fps]

theorem specLen_cfgBad6 : cfgBad6.specLen = 2 := by
  simp only [Config.specLen, Config.FFT_window_size, round_up_to_even, cfgBad6]
  norm_num
  decide

theorem binSet_cfgBad6_empty : cfgBad6.binSet 2 = ∅ := by
  rw [Config.binSet]
  exact binSet_empty_of_le _ _ _ (le_of_eq specLen_cfgBad6)

theorem update_rolling_bin_mean (s : State) (b : ℕ) :
    (update_rolling_stats s).bin_mean_values b =
      nmax (nsmulR (1 - equalizer_strength)
          (nmeanRange s.cfg.n_frequency_bins (rollingMeans s)))
        (rollingMeans s b) := rfl

theorem rollingMeans_eq_none (s : State) (b : ℕ)
    (h : s.frequency_bin_energies b = none) : rollingMeans s b = none := by
  rw [rollingMeans]
  apply nmeanList_eq_none_of_mem
  exact List.mem_map.mpr ⟨s.frequency_bin_energies,
    takeLast_append_mem _ _ _ rolling_window_pos, h⟩

/-- Claim C9: on a dirty `get_audio_features()` call, the vector appended to
the rolling-equalizer history is the pre-sanitization bin-energy vector
computed by `update_features` (the NaN replacement and the negative clamp of
lines 135-139 run only afterwards); consequently an empty bin contributes a
NaN entry to the history and makes the derived equalizer mean of that bin
NaN. -/
theorem claim_C9_presanitized_append (c : Collab) (s : State)
    (hdirty : s.buffer_is_updated = true) :
    ((get_audio_features c s).1.rolling_bin_values).getLast? =
      some ((update_features c s).frequency_bin_energies) ∧
    (∀ b, s.cfg.binSet b = ∅ →
      (update_features c s).frequency_bin_energies b = none ∧
      (get_audio_features c s).1.bin_mean_values b = none) := by
  have hfst : (get_audio_features c s).1 = refreshState c s := by
    rw [get_audio_features, if_pos hdirty]
  have henergies : ∀ b, s.cfg.binSet b = ∅ →
      (update_features c s).frequency_bin_energies b = none := by
    intro b hb
    show nmeanFinset (s.cfg.binSet b) _ = none
    rw [nmeanFinset, if_pos hb]
  constructor
  · rw [hfst]
    show (pushRolling (update_features c s)).getLast? = _
    rw [pushRolling]
    exact takeLast_append_getLast _ _ _ rolling_window_pos
  · intro b hb
    refine ⟨henergies b hb, ?_⟩
    rw [hfst]
    show (update_rolling_stats (update_features c s)).bin_mean_values b = none
    rw [update_rolling_bin_mean,
      rollingMeans_eq_none _ _ (henergies b hb), nmax_none_right]

/-- Closed witness for claim C9: on a dirty analyzer with more bins than
spectrum indices (`cfgBad6`, bin 2 empty), the vector pushed into the rolling
history is the raw bin-energy vector and its entry for the empty bin is
NaN. -/
theorem claim_C9_witness :
    ((get_audio_features cZero
        (append_data (initState cfgBad6) [0])).1.rolling_bin_values).getLast? =
      some ((update_features cZero
        (append_data (initState cfgBad6) [0])).frequency_bin_energies) ∧
    (update_features cZero
        (append_data (initState cfgBad6) [0])).frequency_bin_energies 2 = none ∧
    (get_audio_features cZero
        (append_data (initState cfgBad6) [0])).1.bin_mean_values 2 = none := by
  have h := claim_C9_presanitized_append cZero
    (append_data (initState cfgBad6) [0]) rfl
  have hempty : (append_data (initState cfgBad6) [0]).cfg.binSet 2 = ∅ :=
    binSet_cfgBad6_empty
  exact ⟨h.1, (h.2 2 hempty).1, (h.2 2 hempty).2⟩

/-- Claim C4 (amended): at any update step of the Rolling Adaptive Equalizer
in which the per-bin means over the current rolling history are all defined
(no NaN), every equalized mean is at least the floor
`(1 - equalizer_strength) * mean(per_bin_means)`. -/
theorem claim_C4_equalizer_floor (s : State) (b : ℕ)
    (hb : b < s.cfg.n_frequency_bins)
    (hdef : ∀ j, j < s.cfg.n_frequency_bins → rollingMeans s j ≠ none) :
    nle (nsmulR (1 - equalizer_strength)
        (nmeanRange s.cfg.n_frequency_bins (rollingMeans s)))
      ((update_rolling_stats s).bin_mean_values b) := by
  obtain ⟨mb, hmb⟩ := Option.ne_none_iff_exists'.mp (hdef b hb)
  have hmean : ∃ μ, nmeanRange s.cfg.n_frequency_bins (rollingMeans s) = some μ := by
    apply Option.ne_none_iff_exists'.mp
    rw [nmeanRange]
    apply nmeanList_ne_none
    · intro x hx
      obtain ⟨j, hj, hxj⟩ := List.mem_map.mp hx
      exact hxj ▸ hdef j (List.mem_range.mp hj)
    · simp only [ne_eq, List.map_eq_nil_iff, List.range_eq_nil]
      omega
  obtain ⟨μ, hμ⟩ := hmean
  rw [update_rolling_bin_mean, hμ, hmb]
  exact ⟨(1 - equalizer_strength) * μ, max ((1 - equalizer_strength) * μ) mb,
    rfl, rfl, le_max_left _ _⟩

theorem rollingMeans_init_ne_none (cfg : Config) (j : ℕ) :
    rollingMeans (initState cfg) j ≠ none := by
  have hpush : pushRolling (initState cfg) =
      List.replicate (rolling_stats_window_n - 1)
        ((fun _ => some 25000) : ℕ → RVal) ++ [(fun _ => some 0 : ℕ → RVal)] := by
    rw [pushRolling]
    exact takeLast_replicate_append _ _ _ rolling_window_pos
  rw [rollingMeans, hpush]
  apply nmeanList_ne_none
  · intro x hx
    rw [List.map_append, List.map_replicate] at hx
    rcases List.mem_append.mp hx with h1 | h2
    · rw [List.eq_of_mem_replicate h1]
      exact Option.some_ne_none _
    · rw [List.mem_singleton.mp h2]
      exact Option.some_ne_none _
  · simp

/-- Closed witness for the amended claim C4: on a fresh default-configuration
analyzer (whose rolling history holds only finite values) the equalized mean
of bin 0 after one equalizer update is at least the floor. -/
theorem claim_C4_witness :
    0 < (initState defaultConfig).cfg.n_frequency_bins ∧
    nle (nsmulR (1 - equalizer_strength)
        (nmeanRange (initState defaultConfig).cfg.n_frequency_bins
          (rollingMeans (initState defaultConfig))))
      ((update_rolling_stats (initState defaultConfig)).bin_mean_values 0) := by
  refine ⟨by norm_num [initState, defaultConfig], ?_⟩
  exact claim_C4_equalizer_floor (initState defaultConfig) 0
    (by norm_num [initState, defaultConfig])
    (fun j _ => rollingMeans_init_ne_none defaultConfig j)

/-- Counterexample to claim C4 as stated: with more bins than spectrum
indices (`cfgBad6`), bin 2 is empty, its raw energy is NaN, the NaN enters
the rolling history, and at that update step the equalized mean of bin 2 is
NaN — so the IEEE comparison `equalized_mean[2] >= floor` is false. -/
theorem claim_C4_counterexample :
    ¬ nle (nsmulR (1 - equalizer_strength)
        (nmeanRange 6 (rollingMeans
          (update_features cZero (append_data (initState cfgBad6) [0])))))
      ((update_rolling_stats
          (update_features cZero (append_data (initState cfgBad6) [0]))).bin_mean_values 2) := by
  have hnone : (update_features cZero
      (append_data (initState cfgBad6) [0])).frequency_bin_energies 2 = none := by
    show nmeanFinset ((append_data (initState cfgBad6) [0]).cfg.binSet 2) _ = none
    rw [show (append_data (initState cfgBad6) [0]).cfg.binSet 2 = ∅ from
      binSet_cfgBad6_empty, nmeanFinset, if_pos rfl]
  rw [update_rolling_bin_mean, rollingMeans_eq_none _ _ hnone, nmax_none_right]
  exact not_nle_none_right _

theorem specLen_cfgBad4 : cfgBad4.specLen = 2 := by
  simp only [Config.specLen, Config.FFT_window_size, round_up_to_even, cfgBad4]
  norm_num
  decide

/-- Claim C5 (amended): the constructor performs no validation at all.  Any
configuration — including the invalid combination of a bin count exceeding
the spectrum length — constructs an analyzer state, and the problem is
deferred to runtime: reading `get_audio_features` then exposes a NaN bin
centre frequency. -/
theorem claim_C5_no_validation (c : Collab) (cfg : Config)
    (h : cfg.specLen < cfg.n_frequency_bins) :
    0 < cfg.n_frequency_bins ∧
    (initState cfg).frequency_bin_centres (cfg.n_frequency_bins - 1) = none ∧
    (get_audio_features c (initState cfg)).2.frequency_bin_centres
      (cfg.n_frequency_bins - 1) = none := by
  have hset : cfg.binSet (cfg.n_frequency_bins - 1) = ∅ := by
    rw [Config.binSet]
    exact binSet_empty_of_le _ _ _ (by omega)
  have hcen : cfg.binCentres (cfg.n_frequency_bins - 1) = none := by
    rw [Config.binCentres, hset, nmeanFinset, if_pos rfl]
  refine ⟨by omega, hcen, ?_⟩
  rw [get_clean c _ rfl]
  exact hcen

/-- Closed witness for the amended claim C5: `cfgBad4` (`4` bins over a
spectrum of length `2`) constructs successfully and exposes a NaN centre. -/
theorem claim_C5_witness :
    cfgBad4.specLen < cfgBad4.n_frequency_bins ∧
    (initState cfgBad4).frequency_bin_centres 3 = none ∧
    (get_audio_features cZero (initState cfgBad4)).2.frequency_bin_centres 3 =
      none := by
  have h : cfgBad4.specLen < cfgBad4.n_frequency_bins := by
    rw [specLen_cfgBad4]
    norm_num [cfgBad4]
  have h5 := claim_C5_no_validation cZero cfgBad4 h
  exact ⟨h, h5.2.1, h5.2.2⟩

/-- Counterexample to claim C5 as stated: the invalid combination
`n_frequency_bins = 4 > 2 = specLen` is not rejected at construction time —
construction produces an ordinary clean analyzer state (dirty flag unset, all
fields populated), and the resulting failure (a NaN bin centre) only
surfaces later, when `get_audio_features` is called. -/
theorem claim_C5_counterexample :
    cfgBad4.specLen < cfgBad4.n_frequency_bins ∧
    (initState cfgBad4).buffer_is_updated = false ∧
    (initState cfgBad4).frequency_bin_centres 3 = none ∧
    (get_audio_features cZero (initState cfgBad4)).2.frequency_bin_centres 3 =
      none := by
  have hset : cfgBad4.binSet 3 = ∅ := by
    rw [Config.binSet]
    exact binSet_empty_of_le _ _ _ (by rw [specLen_cfgBad4]; norm_num)
  have hcen : cfgBad4.binCentres 3 = none := by
    rw [Config.binCentres, hset, nmeanFinset, if_pos rfl]
  refine ⟨?_, rfl, hcen, ?_⟩
  · rw [specLen_cfgBad4]
    norm_num [cfgBad4]
  · rw [get_clean cZero _ rfl]
    exact hcen

/-- Claim C6 (amended): the bin centre frequency of an empty bin is NaN
internally, and `get_audio_features` performs no sanitization on the centre
vector: after any sequence of public calls it returns exactly the
construction-time centre vector, whose entry is NaN precisely for the empty
bins (only the energies are NaN-sanitized). -/
theorem claim_C6_centres_not_sanitized (c : Collab) (cfg : Config)
    (ops : List Op) (b : ℕ) :
    (get_audio_features c (run c (initState cfg) ops)).2.frequency_bin_centres =
      cfg.binCentres ∧
    (cfg.binCentres b = none ↔ cfg.binSet b = ∅) := by
  constructor
  · rw [get_snd_eq]
    show (get_audio_features c (run c (initState cfg) ops)).1.frequency_bin_centres = _
    have h1 : (get_audio_features c (run c (initState cfg) ops)).1.frequency_bin_centres
        = (run c (initState cfg) ops).frequency_bin_centres := by
      by_cases h : (run c (initState cfg) ops).buffer_is_updated = true
      · rw [get_audio_features, if_pos h]
        exact refresh_centres c _
      · rw [get_clean c _ (by simpa using h)]
    rw [h1, run_centres]
    rfl
  · rw [Config.binCentres, nmeanFinset]
    by_cases h : cfg.binSet b = ∅
    · rw [if_pos h]
      exact iff_of_true rfl h
    · rw [if_neg h]
      exact iff_of_false (Option.some_ne_none _) h

/-- Counterexample to claim C6 as stated: with `cfgBad6` (six bins over a
spectrum of length two) bin 2 is empty, and the bin-centre-frequency vector
returned by `get_audio_features()` does contain NaN at index 2 — no
sanitization of the centres happens at read time. -/
theorem claim_C6_counterexample :
    cfgBad6.binSet 2 = ∅ ∧
    (get_audio_features cZero (initState cfgBad6)).2.frequency_bin_centres 2 =
      none := by
  refine ⟨binSet_cfgBad6_empty, ?_⟩
  rw [get_clean cZero _ rfl]
  show cfgBad6.binCentres 2 = none
  rw [Config.binCentres, binSet_cfgBad6_empty, nmeanFinset, if_pos rfl]

theorem logspace_desc_one_le (L j : ℕ) (hL : 1 ≤ L) (hj : j < L) :
    1 ≤ logspace_desc L j := by
  rw [logspace_desc]
  have he : 0 ≤ (((L : ℝ) - 1 - (j : ℝ)) / ((L : ℝ) - 1)) * Real.logb 2 (L : ℝ) := by
    apply mul_nonneg
    · rcases eq_or_lt_of_le hL with h1 | h1
      · have hc : (L : ℝ) = 1 := by exact_mod_cast h1.symm
        rw [hc]
        norm_num
      · have hc : (1 : ℝ) < L := by exact_mod_cast h1
        apply div_nonneg
        · have hcj : (j : ℝ) + 1 ≤ L := by exact_mod_cast hj
          linarith
        · linarith
    · exact Real.logb_nonneg one_lt_two (by exact_mod_cast hL)
  calc (1 : ℝ) = (2 : ℝ) ^ (0 : ℝ) := (Real.rpow_zero 2).symm
    _ ≤ _ := Real.rpow_le_rpow_of_exponent_le one_le_two he

theorem logspace_desc_le (L j : ℕ) (hL : 1 ≤ L) (_hj : j < L) :
    logspace_desc L j ≤ (L : ℝ) := by
  rw [logspace_desc]
  rcases eq_or_lt_of_le hL with h1 | h1
  · have hc : (L : ℝ) = 1 := by exact_mod_cast h1.symm
    rw [hc]
    simp
  · have hc : (1 : ℝ) < L := by exact_mod_cast h1
    have hle : (((L : ℝ) - 1 - (j : ℝ)) / ((L : ℝ) - 1)) * Real.logb 2 (L : ℝ) ≤
        Real.logb 2 (L : ℝ) := by
      have hratio : (((L : ℝ) - 1 - (j : ℝ)) / ((L : ℝ) - 1)) ≤ 1 := by
        rw [div_le_one (by linarith)]
        have hj0 : (0 : ℝ) ≤ (j : ℝ) := Nat.cast_nonneg j
        linarith
      have hlog : 0 ≤ Real.logb 2 (L : ℝ) := Real.logb_nonneg one_lt_two (by linarith)
      nlinarith
    calc (2 : ℝ) ^ ((((L : ℝ) - 1 - (j : ℝ)) / ((L : ℝ) - 1)) * Real.logb 2 (L : ℝ))
        ≤ (2 : ℝ) ^ Real.logb 2 (L : ℝ) :=
          Real.rpow_le_rpow_of_exponent_le one_le_two hle
      _ = (L : ℝ) := Real.rpow_logb two_pos (by norm_num) (by linarith)

theorem logspace_desc_zero_eq (L : ℕ) (hL : 1 ≤ L) : logspace_desc L 0 = (L : ℝ) := by
  rw [logspace_desc]
  rcases eq_or_lt_of_le hL with h1 | h1
  · have hc : (L : ℝ) = 1 := by exact_mod_cast h1.symm
    rw [hc]
    simp
  · have hc : (1 : ℝ) < L := by exact_mod_cast h1
    rw [show (((L : ℝ) - 1 - ((0 : ℕ) : ℝ)) / ((L : ℝ) - 1)) * Real.logb 2 (L : ℝ) =
        Real.logb 2 (L : ℝ) from by
      rw [Nat.cast_zero, sub_zero, div_self (by linarith : (L : ℝ) - 1 ≠ 0), one_mul]]
    exact Real.rpow_logb two_pos (by norm_num) (by linarith)

theorem npMaxF_logspace (L : ℕ) (hL : 1 ≤ L) :
    npMaxF L (fun i => logspace_desc L i - 1) = (L : ℝ) - 1 := by
  have hbound : ∀ x ∈ (List.range L).map (fun i => logspace_desc L i - 1),
      x ≤ logspace_desc L 0 - 1 := by
    intro x hx
    obtain ⟨i, hi, rfl⟩ := List.mem_map.mp hx
    rw [logspace_desc_zero_eq L hL]
    have := logspace_desc_le L i hL (List.mem_range.mp hi)
    linarith
  rw [show npMaxF L (fun i => logspace_desc L i - 1) =
    ((List.range L).map (fun i => logspace_desc L i - 1)).foldr max
      (logspace_desc L 0 - 1) from rfl,
    foldr_max_eq _ _ hbound, logspace_desc_zero_eq L hL]

theorem raw_arg_eq (L B j : ℕ) (hL : 1 ≤ L) :
    fftx_bin_indices_raw L B j =
      np_round ((((L : ℝ) - 1) - (logspace_desc L j - 1)) / ((L : ℝ) / (B : ℝ))) := by
  rw [fftx_bin_indices_raw, npMaxF_logspace L hL]

theorem raw_nonneg (L B j : ℕ) (hL : 1 ≤ L) (hj : j < L) :
    0 ≤ fftx_bin_indices_raw L B j := by
  rw [raw_arg_eq L B j hL]
  apply np_round_nonneg
  apply div_nonneg
  · have := logspace_desc_le L j hL hj
    linarith
  · positivity

theorem raw_le (L B j : ℕ) (hL : 1 ≤ L) (hB : 1 ≤ B) (hj : j < L) :
    fftx_bin_indices_raw L B j ≤ (B : ℤ) := by
  rw [raw_arg_eq L B j hL]
  apply np_round_le
  have hBpos : (0 : ℝ) < B := by exact_mod_cast hB
  have hLpos : (0 : ℝ) < L := by exact_mod_cast hL
  have hq : (0 : ℝ) < (L : ℝ) / (B : ℝ) := div_pos hLpos hBpos
  rw [show (((B : ℤ) : ℝ)) = (B : ℝ) from by push_cast; rfl, div_le_iff₀ hq]
  have hv := logspace_desc_one_le L j hL hj
  have hmul : (B : ℝ) * ((L : ℝ) / (B : ℝ)) = (L : ℝ) := by
    field_simp
  rw [hmul]
  linarith

theorem raw_zero_eq (L B : ℕ) (hL : 1 ≤ L) : fftx_bin_indices_raw L B 0 = 0 := by
  rw [raw_arg_eq L B 0 hL, logspace_desc_zero_eq L hL, sub_self, zero_div]
  exact np_round_zero

theorem npMinI_raw_eq (L B : ℕ) (hL : 1 ≤ L) :
    npMinI L (fftx_bin_indices_raw L B) = 0 := by
  have hbound : ∀ x ∈ (List.range L).map (fftx_bin_indices_raw L B),
      fftx_bin_indices_raw L B 0 ≤ x := by
    intro x hx
    obtain ⟨i, hi, rfl⟩ := List.mem_map.mp hx
    rw [raw_zero_eq L B hL]
    exact raw_nonneg L B i hL (List.mem_range.mp hi)
  rw [show npMinI L (fftx_bin_indices_raw L B) =
    ((List.range L).map (fftx_bin_indices_raw L B)).foldr min
      (fftx_bin_indices_raw L B 0) from rfl,
    foldr_min_eq _ _ hbound, raw_zero_eq L B hL]

theorem fftx_bin_indices_bounds (L B j : ℕ) (hB : 1 ≤ B) (hBL : B ≤ L)
    (hj : j < L) :
    0 ≤ fftx_bin_indices L B j ∧ fftx_bin_indices L B j ≤ (B : ℤ) := by
  have hL : 1 ≤ L := le_trans hB hBL
  rw [fftx_bin_indices, npMinI_raw_eq L B hL, sub_zero]
  constructor
  · exact le_min (Int.natCast_nonneg j) (raw_nonneg L B j hL hj)
  · exact le_trans (min_le_right _ _) (raw_le L B j hL hB hj)

/-- Claim C1 (amended): for every valid configuration (`1 ≤ B ≤ L`) the Bin
Index Table assigns every linear spectrum index exactly one bin id, the ids
lie in `0..B` — the id `B`, one past the claimed bound `B - 1`, can actually
occur — the per-bin index sets are pairwise disjoint, and the sets for ids
`0..B` (not `0..B-1`) jointly cover `{0..L-1}`. -/
theorem claim_C1_bin_table_partition (L B : ℕ) (hB : 1 ≤ B) (hBL : B ≤ L) :
    (∀ j, j < L → 0 ≤ fftx_bin_indices L B j ∧ fftx_bin_indices L B j ≤ (B : ℤ)) ∧
    (∀ b1 b2 : ℕ, b1 ≠ b2 →
      Disjoint (fftx_indices_per_bin L B b1) (fftx_indices_per_bin L B b2)) ∧
    Finset.range L = (Finset.range (B + 1)).biUnion (fftx_indices_per_bin L B) := by
  refine ⟨fun j hj => fftx_bin_indices_bounds L B j hB hBL hj, ?_, ?_⟩
  · intro b1 b2 hne
    rw [Finset.disjoint_left]
    intro j hj1 hj2
    rw [fftx_indices_per_bin, Finset.mem_filter] at hj1 hj2
    exact hne (by exact_mod_cast hj1.2.symm.trans hj2.2)
  · ext j
    simp only [Finset.mem_biUnion, Finset.mem_range, fftx_indices_per_bin,
      Finset.mem_filter]
    constructor
    · intro hj
      obtain ⟨h0, hBd⟩ := fftx_bin_indices_bounds L B j hB hBL hj
      refine ⟨(fftx_bin_indices L B j).toNat, ?_, hj, ?_⟩
      · have : (fftx_bin_indices L B j).toNat ≤ B := Int.toNat_le.mpr hBd
        omega
      · rw [Int.toNat_of_nonneg h0]
    · rintro ⟨b, _, hjL, _⟩
      exact hjL

/-- Closed witness for the amended claim C1: the valid configuration
`L = B = 2` satisfies the bounds and the cover over ids `0..B`. -/
theorem claim_C1_witness :
    ((1 : ℕ) ≤ 2 ∧ (2 : ℕ) ≤ 2) ∧
    (0 ≤ fftx_bin_indices 2 2 1 ∧ fftx_bin_indices 2 2 1 ≤ (2 : ℤ)) ∧
    Finset.range 2 = (Finset.range 3).biUnion (fftx_indices_per_bin 2 2) := by
  refine ⟨⟨one_le_two, le_refl 2⟩, ?_, ?_⟩
  · exact (claim_C1_bin_table_partition 2 2 (by norm_num) (by norm_num)).1 1
      (by norm_num)
  · exact (claim_C1_bin_table_partition 2 2 (by norm_num) (by norm_num)).2.2

/-- Counterexample to claim C1 as stated: for the valid configuration
`L = 4`, `B = 1` the top spectrum index `3` receives bin id `1`, which is
outside `0..B-1 = {0}`, and consequently index `3` belongs to none of the
per-bin index sets `0..B-1` — the claimed cover of `{0..L-1}` fails. -/
theorem claim_C1_counterexample :
    (1 : ℕ) ≤ 4 ∧ fftx_bin_indices 4 1 3 = 1 ∧
    3 ∉ fftx_indices_per_bin 4 1 0 := by
  have hL : (1 : ℕ) ≤ 4 := by norm_num
  have h3 : logspace_desc 4 3 = 1 := by
    rw [logspace_desc]
    norm_num
  have hraw3 : fftx_bin_indices_raw 4 1 3 = 1 := by
    rw [raw_arg_eq 4 1 3 hL, h3]
    rw [show ((((4 : ℕ) : ℝ) - 1) - ((1 : ℝ) - 1)) / (((4 : ℕ) : ℝ) / ((1 : ℕ) : ℝ)) =
      3 / 4 from by push_cast; norm_num]
    exact np_round_eq_of_bounds 1 (3 / 4) (by norm_num) (by norm_num)
  have hbin : fftx_bin_indices 4 1 3 = 1 := by
    rw [fftx_bin_indices, npMinI_raw_eq 4 1 hL, hraw3]
    norm_num
  refine ⟨hL, hbin, ?_⟩
  rw [fftx_indices_per_bin, Finset.mem_filter]
  rintro ⟨-, h⟩
  rw [hbin] at h
  norm_num at h

end StreamAnalyzer
